import Mathlib

/-!
Verification of the `stack_data` core algorithms: the `truncate` function,
the repeated-run highlighting and collapsing engine
(`highlight_unique` / `collapse_repeated` from `stack_data/utils.py`),
and the stack renderer `format_stack_data` from `stack_data/formatting.py`.

Python sequences are modelled as Lean lists; Python slice expressions are
modelled by `pySliceTo` / `pySliceFrom`, which reproduce Python's semantics
for negative bounds (a negative bound counts from the end, clamped; slicing
is total and never raises).
-/

namespace StackData

variable {α : Type} {β : Type} {κ : Type}

/-- Python `l[:k]` for an arbitrary integer `k`: a non-negative `k` takes the
first `k` elements (clamped to the length); a negative `k` takes
`len + k` elements, clamped below at `0`. -/
def pySliceTo (l : List α) (k : Int) : List α :=
  if 0 ≤ k then l.take k.toNat else l.take (l.length - (-k).toNat)

/-- Python `l[k:]` for an arbitrary integer `k`: a non-negative `k` drops the
first `k` elements (clamped); a negative `k` starts at `max 0 (len + k)`.
In particular `l[-0:] = l[0:]` is the whole list. -/
def pySliceFrom (l : List α) (k : Int) : List α :=
  if 0 ≤ k then l.drop k.toNat else l.drop (l.length - (-k).toNat)

/-- The local variable `left = (max_length - len(middle)) // 2` of
`truncate`; Python `//` on ints is floor division, `Int.fdiv`. -/
def truncLeft (max_length mid_length : Nat) : Int :=
  Int.fdiv ((max_length : Int) - (mid_length : Int)) 2

/-- The local variable `right = max_length - len(middle) - left` of
`truncate`. -/
def truncRight (max_length mid_length : Nat) : Int :=
  (max_length : Int) - (mid_length : Int) - truncLeft max_length mid_length

/-- Embedding of `truncate` from `stack_data/utils.py`:
```
def truncate(seq, max_length, middle):
    if len(seq) > max_length:
        left = (max_length - len(middle)) // 2
        right = max_length - len(middle) - left
        seq = seq[:left] + middle + seq[-right:]
    return seq
```
`seq[-right:]` is `pySliceFrom seq (-right)`. -/
def truncate (seq : List α) (max_length : Nat) (middle : List α) : List α :=
  if max_length < seq.length then
    pySliceTo seq (truncLeft max_length middle.length) ++ middle ++
      pySliceFrom seq (-(truncRight max_length middle.length))
  else seq

/-- The truncation behaviour the spec's error-handling section describes for
the degenerate case: the computed `left` and `right` are clamped to
non-negative before slicing, so `left` never takes from the end and a
clamped `right = 0` contributes an empty tail.  Written to be compared
with `truncate`, which does not clamp. -/
def truncate_clamped (seq : List α) (max_length : Nat) (middle : List α) : List α :=
  if max_length < seq.length then
    seq.take (truncLeft max_length middle.length).toNat ++ middle ++
      seq.drop (seq.length - (truncRight max_length middle.length).toNat)
  else seq

/-! Embedding of `itertools.groupby`.

`groupby f l` splits `l` into its maximal runs of consecutive elements with
equal `f`-value, returning `(key, run)` pairs in order, exactly as
`itertools.groupby(l, key=f)` does (with each run materialised). -/

/-- One step of `groupby`: prepend `x` to an already-grouped tail, joining
the first run when its key equals `f x` and opening a new run otherwise. -/
def groupbyCons [DecidableEq β] (f : α → β) (x : α) :
    List (β × List α) → List (β × List α)
  | [] => [(f x, [x])]
  | (k, g) :: rest =>
      if f x = k then (k, x :: g) :: rest else (f x, [x]) :: (k, g) :: rest

def groupby [DecidableEq β] (f : α → β) : List α → List (β × List α)
  | [] => []
  | x :: xs => groupbyCons f x (groupby f xs)

/-! Embedding of Python `list.index`.

`firstIdx? x l` models `l.index(x)`: the index of the first occurrence of
`x` in `l`, or `none` where Python raises `ValueError`. -/

def firstIdx? [DecidableEq α] (x : α) : List α → Option Nat
  | [] => none
  | y :: ys => if y = x then some 0 else (firstIdx? x ys).map (· + 1)

/-! Embedding of `highlight_unique` from `stack_data/utils.py`:
```
def highlight_unique(lst):
    counts = Counter(lst)
    for is_common, group in itertools.groupby(lst, key=lambda x: counts[x] > 3):
        if is_common:
            group = list(group)
            highlighted = [False] * len(group)

            def highlight_index(f):
                try:
                    i = f()
                except ValueError:
                    return None
                highlighted[i] = True
                return i

            for item in set(group):
                first = highlight_index(lambda: group.index(item))
                if first is not None:
                    highlight_index(lambda: group.index(item, first + 1))
                highlight_index(lambda: -1 - group[::-1].index(item))
        else:
            highlighted = itertools.repeat(True)

        yield from zip(group, highlighted)
```
-/

/-- First part of the loop body for one `item` of `set(group)`: mark the
first occurrence (`group.index(item)`), then the next occurrence after it
(`group.index(item, first + 1)`, modelled as a search in
`group.drop (first + 1)`); a failed search (Python `ValueError`) marks
nothing, and the second search runs only when the first succeeded. -/
def markFirstSecond [DecidableEq α] (g : List α) (x : α) (flags : List Bool) :
    List Bool :=
  match firstIdx? x g with
  | none => flags
  | some first =>
    match firstIdx? x (g.drop (first + 1)) with
    | none => flags.set first true
    | some j => (flags.set first true).set (first + 1 + j) true

/-- Second part of the loop body: mark the last occurrence, searched from
the end (`-1 - group[::-1].index(item)`, which through Python's negative
indexing is position `len(group) - 1 - r` for `r` the index in the reversed
run); this search runs whether or not the first one succeeded. -/
def markLast [DecidableEq α] (g : List α) (x : α) (flags : List Bool) :
    List Bool :=
  match firstIdx? x g.reverse with
  | none => flags
  | some r => flags.set (g.length - 1 - r) true

/-- The whole loop body of `for item in set(group)` for one item. -/
def markItem [DecidableEq α] (g : List α) (x : α) (flags : List Bool) :
    List Bool :=
  markLast g x (markFirstSecond g x flags)

/-- The common-run branch of `highlight_unique`: start from all-`False`
flags (`[False] * len(group)`) and run the marking loop over the distinct
items of the run.  The markings of distinct items touch disjoint positions,
so the iteration order of Python's `set(group)` is immaterial; it is
modelled by `List.dedup`. -/
def highlightCommon [DecidableEq α] (g : List α) : List Bool :=
  List.foldl (fun flags x => markItem g x flags) (List.replicate g.length false) g.dedup

/-- Embedding of `highlight_unique`: group `lst` into maximal runs by
whether the global count of the element exceeds 3 (`counts[x] > 3` with
`counts = Counter(lst)`); a common run is zipped with its computed flags, a
rare run is paired with all-`True` (`itertools.repeat(True)`). -/
def highlight_unique [DecidableEq α] (lst : List α) : List (α × Bool) :=
  (groupby (fun x => decide (3 < lst.count x)) lst).flatMap fun p =>
    if p.1 then p.2.zip (highlightCommon p.2) else p.2.map (fun x => (x, true))

/-! Embedding of `collapse_repeated` from `stack_data/utils.py`:
```
def collapse_repeated(lst, *, collapser, mapper=identity, key=identity):
    keyed = list(map(key, lst))
    for is_highlighted, group in itertools.groupby(
            zip(lst, highlight_unique(keyed)),
            key=lambda t: t[1][1],
    ):
        original_group, highlighted_group = zip(*group)
        if is_highlighted:
            yield from map(mapper, original_group)
        else:
            keyed_group, _ = zip(*highlighted_group)
            yield collapser(original_group, keyed_group)
```
-/

def collapse_repeated [DecidableEq κ]
    (lst : List α) (collapser : List α → List κ → β) (mapper : α → β)
    (key : α → κ) : List β :=
  (groupby (fun t : α × κ × Bool => t.2.2)
      (lst.zip (highlight_unique (lst.map key)))).flatMap
    fun p =>
      if p.1 then p.2.map (fun t => mapper t.1)
      else [collapser (p.2.map Prod.fst) (p.2.map (fun t => t.2.1))]

/-- The output alphabet used to observe `collapse_repeated`: either a
visible item passed to `mapper`, or the pair of argument lists
(original run, keyed run) passed to `collapser` for a hidden run. -/
inductive Segment (α κ : Type) where
  | item : α → Segment α κ
  | summary : List α → List κ → Segment α κ
  deriving DecidableEq

/-- Apply arbitrary `collapser`/`mapper` functions to a recorded segment. -/
def Segment.render (collapser : List α → List κ → β) (mapper : α → β) :
    Segment α κ → β
  | .item x => mapper x
  | .summary o ks => collapser o ks

def Segment.isSummary : Segment α κ → Bool
  | .item _ => false
  | .summary _ _ => true

/-- The underlying original items of a segment: the single visible item, or
the hidden run a summary was built from. -/
def segmentItems : Segment α κ → List α
  | .item x => [x]
  | .summary o _ => o

/-- The hidden run a summary covers, `none` for a visible item. -/
def summaryItems? : Segment α κ → Option (List α)
  | .item _ => none
  | .summary o _ => some o

/-- The canonical instantiation of `collapse_repeated` with the `Segment`
constructors: a faithful record of what is emitted, from which any other
instantiation factors (see `collapse_partition`). -/
def collapseSegments [DecidableEq κ] (key : α → κ) (lst : List α) :
    List (Segment α κ) :=
  collapse_repeated lst Segment.summary Segment.item key

/-- Concatenation of the visible items and the summaries' underlying runs,
in emitted order. -/
def reconstruct (segs : List (Segment α κ)) : List α :=
  segs.flatMap segmentItems

/-! Occurrence predicates used to state the boundary-visibility claim. -/

/-- Position `i` holds the first occurrence of `x` in `g`. -/
def firstOccIdx (g : List α) (x : α) (i : Nat) : Prop :=
  g[i]? = some x ∧ ∀ j < i, g[j]? ≠ some x

/-- Position `i` holds the second occurrence of `x` in `g`: it holds `x`,
and the only earlier occurrence is the first one. -/
def secondOccIdx (g : List α) (x : α) (i : Nat) : Prop :=
  g[i]? = some x ∧
    ∃ f, firstOccIdx g x f ∧ f < i ∧ ∀ j, f < j → j < i → g[j]? ≠ some x

/-- Position `i` holds the last occurrence of `x` in `g`. -/
def lastOccIdx (g : List α) (x : α) (i : Nat) : Prop :=
  g[i]? = some x ∧ ∀ j, i < j → g[j]? ≠ some x

/-- The positions the marking loop body sets for item `x`: the first, the
second, and the last occurrence of `x`. -/
def markSpec (g : List α) (x : α) (i : Nat) : Prop :=
  firstOccIdx g x i ∨ secondOccIdx g x i ∨ lastOccIdx g x i

/-- What one group of `collapse_repeated` emits, recorded with the `Segment`
constructors: each pair of a visible group individually, or one summary
holding the hidden group's original items and keys. -/
def emitSeg (p : Bool × List (α × κ × Bool)) : List (Segment α κ) :=
  if p.1 then p.2.map (fun t => Segment.item t.1)
  else [Segment.summary (p.2.map Prod.fst) (p.2.map (fun t => t.2.1))]

/-! Embedding of `Formatter.format_stack_data` from
`stack_data/formatting.py`.  A stack element is either a `FrameInfo` —
rendered by `format_frame`, abstracted here as a function producing the
frame's lines — or a `RepeatedFrames` summary carrying its description
string. -/

inductive StackItem (F : Type) where
  | frameInfo : F → StackItem F
  | repeatedFrames : String → StackItem F

/-- Embedding of `format_repeated_frames`:
`'    [... skipping similar frames: {}]\n'.format(repeated_frames.description)`. -/
def format_repeated_frames (description : String) : String :=
  "    [... skipping similar frames: " ++ description ++ "]\n"

/-- Embedding of `format_stack_data`:
```
def format_stack_data(self, stack):
    for item in stack:
        if isinstance(item, FrameInfo):
            yield from self.format_frame(item)
        else:
            return self.format_repeated_frames(item)
```
The `else` branch executes `return` inside a generator: the generator stops
at the first `RepeatedFrames` element, the value handed to `return` (the
formatted summary line) becomes the discarded `StopIteration` value, and no
later element of the stack is processed.  Consumers iterating the generator
therefore see no further lines. -/
def format_stack_data {F : Type} (format_frame : F → List String) :
    List (StackItem F) → List String
  | [] => []
  | .frameInfo f :: rest => format_frame f ++ format_stack_data format_frame rest
  | .repeatedFrames _ :: _ => []

/-- The linearization the spec describes (and the claim states): every
frame's rendered lines, and one `format_repeated_frames` line per summary,
in input order with no element skipped or dropped.  Written to be compared
with `format_stack_data`. -/
def format_stack_data_spec {F : Type} (format_frame : F → List String) :
    List (StackItem F) → List String
  | [] => []
  | .frameInfo f :: rest => format_frame f ++ format_stack_data_spec format_frame rest
  | .repeatedFrames d :: rest =>
      format_repeated_frames d :: format_stack_data_spec format_frame rest

/-! The stack renderer. -/

def demoDescription : String := "demo"

def demoLine : String := "frame line"

theorem truncLeft_eq (n m : Nat) (h : m ≤ n) :
    truncLeft n m = (((n - m) / 2 : Nat) : Int) := by
  unfold truncLeft
  rw [← Int.ofNat_sub h, Int.fdiv_eq_ediv _ (by norm_num)]
  norm_cast

theorem truncRight_eq (n m : Nat) (h : m ≤ n) :
    truncRight n m = (((n - m) - (n - m) / 2 : Nat) : Int) := by
  unfold truncRight
  rw [truncLeft_eq n m h, ← Int.ofNat_sub h]
  have hdivle : (n - m) / 2 ≤ n - m := Nat.div_le_self _ _
  rw [← Int.ofNat_sub hdivle]

theorem truncate_of_length_le (seq : List α) (n : Nat) (m : List α)
    (h : seq.length ≤ n) : truncate seq n m = seq := by
  unfold truncate
  rw [if_neg (by omega)]

/-- With `middle` strictly shorter than `max_length`, the integer `left` and
`right` of `truncate` are the natural numbers `(n - m) / 2` and
`n - m - (n - m) / 2`, and both slices are ordinary take/drop. -/
theorem truncate_eq_of_lt (seq : List α) (n : Nat) (m : List α)
    (hm : m.length < n) (hs : n < seq.length) :
    truncate seq n m =
      seq.take ((n - m.length) / 2) ++ m ++
        seq.drop (seq.length - (n - m.length - (n - m.length) / 2)) := by
  have hm' : m.length ≤ n := Nat.le_of_lt hm
  unfold truncate
  rw [if_pos hs, truncLeft_eq n m.length hm', truncRight_eq n m.length hm']
  have hleft : pySliceTo seq (((n - m.length) / 2 : Nat) : Int) =
      seq.take ((n - m.length) / 2) := by
    unfold pySliceTo
    rw [if_pos (by positivity)]
    rw [Int.toNat_natCast]
  have hrpos : 0 < (n - m.length) - (n - m.length) / 2 := by
    have h1 : 0 < n - m.length := Nat.sub_pos_of_lt hm
    have h2 : (n - m.length) / 2 < n - m.length := Nat.div_lt_self h1 (by omega)
    omega
  have hright : pySliceFrom seq (-(((n - m.length) - (n - m.length) / 2 : Nat) : Int)) =
      seq.drop (seq.length - ((n - m.length) - (n - m.length) / 2)) := by
    unfold pySliceFrom
    rw [if_neg (by omega)]
    simp
  rw [hleft, hright]

/-- With `middle` strictly shorter than `max_length` and a sequence longer
than `max_length`, the result of `truncate` has length exactly `max_length`. -/
theorem truncate_length_eq (seq : List α) (n : Nat) (m : List α)
    (hm : m.length < n) (hs : n < seq.length) :
    (truncate seq n m).length = n := by
  rw [truncate_eq_of_lt seq n m hm hs]
  have hdivle : (n - m.length) / 2 ≤ n - m.length := Nat.div_le_self _ _
  simp only [List.length_append, List.length_take, List.length_drop]
  omega

/-- Claim C4 (amended): when `middle` is strictly shorter than `max_length`,
`truncate` returns the sequence unchanged if it fits, and otherwise equals
`seq[0:left] + middle + seq[len(seq)-right:len(seq)]` with
`left = (max_length - len(middle)) // 2` and
`right = max_length - len(middle) - left`, the larger half of an odd budget
going to the right. -/
theorem truncate_formula (seq : List α) (n : Nat) (m : List α)
    (hm : m.length < n) :
    truncate seq n m =
      if seq.length ≤ n then seq
      else seq.take ((n - m.length) / 2) ++ m ++
        seq.drop (seq.length - (n - m.length - (n - m.length) / 2)) := by
  by_cases hs : seq.length ≤ n
  · rw [if_pos hs]
    exact truncate_of_length_le seq n m hs
  · rw [if_neg hs]
    exact truncate_eq_of_lt seq n m hm (by omega)

/-- Claim C4, counterexample: at `seq = [0,1,2,3]`, `max_length = 3`,
`middle = [9,9,9]` the claimed formula gives
`seq[0:0] ++ middle ++ seq[4:4] = [9,9,9]`, but `truncate` (through Python's
`seq[-0:] = seq`) returns `[9,9,9,0,1,2,3]`. -/
theorem truncate_formula_counterexample :
    truncate [0, 1, 2, 3] 3 [9, 9, 9] = [9, 9, 9, 0, 1, 2, 3] ∧
      truncate [0, 1, 2, 3] 3 [9, 9, 9] ≠
        List.take 0 [0, 1, 2, 3] ++ [9, 9, 9] ++ List.drop 4 [0, 1, 2, 3] := by
  constructor
  · rfl
  · decide

/-- Claim C4, witness for the amended theorem at the spec's own example
shape (`truncate("abcdefghij", 6, "...")`, rendered over `Nat`):
`left = 1`, `right = 2`, result `[0] ++ [97,97,97] ++ [8,9]`. -/
theorem truncate_formula_witness :
    ([97, 97, 97] : List Nat).length < 6 ∧
      truncate [0, 1, 2, 3, 4, 5, 6, 7, 8, 9] 6 [97, 97, 97] =
        if ([0, 1, 2, 3, 4, 5, 6, 7, 8, 9] : List Nat).length ≤ 6 then
          [0, 1, 2, 3, 4, 5, 6, 7, 8, 9]
        else
          List.take ((6 - 3) / 2) [0, 1, 2, 3, 4, 5, 6, 7, 8, 9] ++ [97, 97, 97] ++
            List.drop (10 - (6 - 3 - (6 - 3) / 2)) [0, 1, 2, 3, 4, 5, 6, 7, 8, 9] :=
  ⟨by decide, truncate_formula [0, 1, 2, 3, 4, 5, 6, 7, 8, 9] 6 [97, 97, 97] (by decide)⟩

/-- Claim C5 (amended): the length bound
`len(truncate(s, n, m)) ≤ max(n, len(m))` holds whenever `len(m) < n`. -/
theorem truncate_length_le (seq : List α) (n : Nat) (m : List α)
    (hm : m.length < n) :
    (truncate seq n m).length ≤ max n m.length := by
  by_cases hs : n < seq.length
  · rw [truncate_length_eq seq n m hm hs]
    exact Nat.le_max_left _ _
  · rw [truncate_of_length_le seq n m (by omega)]
    omega

/-- Claim C5, counterexample: with `s = [0,1,2,3]`, `n = 3`, `m = [9,9,9]`
the result is `[9,9,9,0,1,2,3]` of length `7 > max 3 3`: the bound fails
when `len(m) ≥ n`. -/
theorem truncate_length_le_counterexample :
    ¬ (truncate [0, 1, 2, 3] 3 [9, 9, 9]).length ≤ max 3 ([9, 9, 9] : List Nat).length := by
  decide

/-- Claim C5, witness: at `s = [0,1,2,3,4]`, `n = 4`, `m = [9]` the bound
`≤ max 4 1` holds. -/
theorem truncate_length_le_witness :
    ([9] : List Nat).length < 4 ∧
      (truncate [0, 1, 2, 3, 4] 4 [9]).length ≤ max 4 ([9] : List Nat).length :=
  ⟨by decide, truncate_length_le [0, 1, 2, 3, 4] 4 [9] (by decide)⟩

/-- Claim C10: for a sequence strictly longer than `max_length` and a middle
strictly shorter than `max_length`, the stated length bound is attained with
equality: the result has length exactly `max_length`. -/
theorem truncate_length_exact (seq : List α) (n : Nat) (m : List α)
    (hs : n < seq.length) (hm : m.length < n) :
    (truncate seq n m).length = n :=
  truncate_length_eq seq n m hm hs

/-- Claim C10, witness: `truncate [0,1,2,3,4] 4 [9]` has length exactly `4`. -/
theorem truncate_length_exact_witness :
    4 < ([0, 1, 2, 3, 4] : List Nat).length ∧ ([9] : List Nat).length < 4 ∧
      (truncate [0, 1, 2, 3, 4] 4 [9]).length = 4 :=
  ⟨by decide, by decide, truncate_length_exact [0, 1, 2, 3, 4] 4 [9] (by decide) (by decide)⟩

/-- Claim C6 (amended): `truncate` is idempotent whenever
`len(m) < n` (strictly): the first application leaves the length `≤ n`, so
the second application is the identity. -/
theorem truncate_idempotent (seq : List α) (n : Nat) (m : List α)
    (hm : m.length < n) :
    truncate (truncate seq n m) n m = truncate seq n m := by
  apply truncate_of_length_le
  by_cases hs : n < seq.length
  · rw [truncate_length_eq seq n m hm hs]
  · rw [truncate_of_length_le seq n m (by omega)]
    omega

/-- Claim C6, counterexample: with `n = 3 ≥ len(m) = 3` (`m = [7,7,7]`,
`s = [0,1,2,3]`), the first application gives `[7,7,7,0,1,2,3]` and the
second prepends `[7,7,7]` again, so idempotence fails at `n = len(m)`. -/
theorem truncate_idempotent_counterexample :
    ([7, 7, 7] : List Nat).length ≤ 3 ∧
      truncate (truncate [0, 1, 2, 3] 3 [7, 7, 7]) 3 [7, 7, 7] ≠
        truncate [0, 1, 2, 3] 3 [7, 7, 7] := by
  constructor
  · decide
  · decide

/-- Claim C6, witness: idempotence at `s = [0,1,2,3,4]`, `n = 4`, `m = [9]`. -/
theorem truncate_idempotent_witness :
    ([9] : List Nat).length < 4 ∧
      truncate (truncate [0, 1, 2, 3, 4] 4 [9]) 4 [9] = truncate [0, 1, 2, 3, 4] 4 [9] :=
  ⟨by decide, truncate_idempotent [0, 1, 2, 3, 4] 4 [9] (by decide)⟩

/-- Claim C7 (amended): when `middle` is longer than `max_length`, `truncate`
still cannot fail with an out-of-range access — it is total and every element
of the (degenerate) result comes from `seq` or from `middle` — but not by
clamping: the unclamped negative `left` slices from the end of `seq` and the
unclamped `right = 0` appends the whole of `seq`. -/
theorem truncate_no_out_of_range (seq : List α) (n : Nat) (m : List α)
    (hm : n < m.length) :
    ∀ x ∈ truncate seq n m, x ∈ seq ∨ x ∈ m := by
  intro x hx
  unfold truncate at hx
  by_cases hs : n < seq.length
  · rw [if_pos hs] at hx
    simp only [List.mem_append] at hx
    rcases hx with (hx | hx) | hx
    · left
      unfold pySliceTo at hx
      by_cases h0 : (0 : Int) ≤ truncLeft n m.length
      · rw [if_pos h0] at hx
        exact List.take_subset _ _ hx
      · rw [if_neg h0] at hx
        exact List.take_subset _ _ hx
    · right; exact hx
    · left
      unfold pySliceFrom at hx
      by_cases h0 : (0 : Int) ≤ -truncRight n m.length
      · rw [if_pos h0] at hx
        exact List.drop_subset _ _ hx
      · rw [if_neg h0] at hx
        exact List.drop_subset _ _ hx
  · rw [if_neg hs] at hx
    left; exact hx

/-- Claim C7, counterexample to the claimed clamping: at `s = [0,1,2,3,4]`,
`n = 2`, `m = [9,9,9]` the code computes `left = -1`, `right = 0` and returns
`s[:-1] ++ m ++ s[-0:] = [0,1,2,3] ++ [9,9,9] ++ [0,1,2,3,4]`, while the
clamped variant returns `[9,9,9]`: `left`/`right` are not clamped before
slicing. -/
theorem truncate_clamped_counterexample :
    2 < ([9, 9, 9] : List Nat).length ∧
      truncate [0, 1, 2, 3, 4] 2 [9, 9, 9] ≠ truncate_clamped [0, 1, 2, 3, 4] 2 [9, 9, 9] := by
  constructor
  · decide
  · decide

/-- Claim C7, witness: the amended no-out-of-range statement at
`s = [0,1,2,3,4]`, `n = 2`, `m = [9,9,9]`. -/
theorem truncate_no_out_of_range_witness :
    2 < ([9, 9, 9] : List Nat).length ∧
      ∀ x ∈ truncate [0, 1, 2, 3, 4] 2 [9, 9, 9],
        x ∈ ([0, 1, 2, 3, 4] : List Nat) ∨ x ∈ ([9, 9, 9] : List Nat) :=
  ⟨by decide, truncate_no_out_of_range [0, 1, 2, 3, 4] 2 [9, 9, 9] (by decide)⟩

theorem groupby_flatMap_snd [DecidableEq β] (f : α → β) (l : List α) :
    (groupby f l).flatMap Prod.snd = l := by
  induction l with
  | nil => rfl
  | cons x xs ih =>
    simp only [groupby]
    cases hgb : groupby f xs with
    | nil =>
      rw [hgb] at ih
      simp only [List.flatMap_nil] at ih
      simp [groupbyCons, ← ih]
    | cons p rest =>
      obtain ⟨k, g⟩ := p
      rw [hgb] at ih
      simp only [groupbyCons]
      by_cases h : f x = k
      · rw [if_pos h]
        simp only [List.flatMap_cons] at ih ⊢
        simp [← ih]
      · rw [if_neg h]
        simp only [List.flatMap_cons] at ih ⊢
        simp [← ih]

theorem groupby_key_eq [DecidableEq β] (f : α → β) (l : List α) :
    ∀ p ∈ groupby f l, ∀ y ∈ p.2, f y = p.1 := by
  induction l with
  | nil => intro p hp; cases hp
  | cons x xs ih =>
    simp only [groupby]
    cases hgb : groupby f xs with
    | nil =>
      intro p hp y hy
      simp only [groupbyCons] at hp
      rcases List.mem_singleton.mp hp with rfl
      rcases List.mem_singleton.mp hy with rfl
      rfl
    | cons q rest =>
      obtain ⟨k, g⟩ := q
      rw [hgb] at ih
      simp only [groupbyCons]
      by_cases h : f x = k
      · rw [if_pos h]
        intro p hp y hy
        rcases List.mem_cons.mp hp with rfl | hp2
        · rcases List.mem_cons.mp hy with rfl | hy2
          · exact h
          · exact ih (k, g) (List.mem_cons_self _ _) y hy2
        · exact ih p (List.mem_cons_of_mem _ hp2) y hy
      · rw [if_neg h]
        intro p hp y hy
        rcases List.mem_cons.mp hp with rfl | hp2
        · rcases List.mem_singleton.mp hy with rfl
          rfl
        · exact ih p hp2 y hy

theorem groupby_group_ne_nil [DecidableEq β] (f : α → β) (l : List α) :
    ∀ p ∈ groupby f l, p.2 ≠ [] := by
  induction l with
  | nil => intro p hp; cases hp
  | cons x xs ih =>
    simp only [groupby]
    cases hgb : groupby f xs with
    | nil =>
      intro p hp
      simp only [groupbyCons] at hp
      rcases List.mem_singleton.mp hp with rfl
      simp
    | cons q rest =>
      obtain ⟨k, g⟩ := q
      rw [hgb] at ih
      simp only [groupbyCons]
      by_cases h : f x = k
      · rw [if_pos h]
        intro p hp
        rcases List.mem_cons.mp hp with rfl | hp2
        · simp
        · exact ih p (List.mem_cons_of_mem _ hp2)
      · rw [if_neg h]
        intro p hp
        rcases List.mem_cons.mp hp with rfl | hp2
        · simp
        · exact ih p hp2

/-- Runs produced by `groupby` are maximal: adjacent runs carry different
keys. -/
theorem groupby_chain_ne [DecidableEq β] (f : α → β) (l : List α) :
    List.Chain' (fun p q : β × List α => p.1 ≠ q.1) (groupby f l) := by
  induction l with
  | nil => exact List.chain'_nil
  | cons x xs ih =>
    simp only [groupby]
    cases hgb : groupby f xs with
    | nil => simp [groupbyCons]
    | cons q rest =>
      obtain ⟨k, g⟩ := q
      rw [hgb] at ih
      simp only [groupbyCons]
      by_cases h : f x = k
      · rw [if_pos h]
        cases rest with
        | nil => simp
        | cons r rs =>
          rw [List.chain'_cons] at ih ⊢
          exact ⟨ih.1, ih.2⟩
      · rw [if_neg h]
        exact List.Chain'.cons h ih

theorem mem_of_mem_groupby [DecidableEq β] {f : α → β} {l : List α}
    {p : β × List α} (hp : p ∈ groupby f l) {y : α} (hy : y ∈ p.2) : y ∈ l := by
  rw [← groupby_flatMap_snd f l]
  exact List.mem_flatMap.mpr ⟨p, hp, hy⟩

theorem firstIdx?_eq_none_iff [DecidableEq α] (x : α) (l : List α) :
    firstIdx? x l = none ↔ x ∉ l := by
  induction l with
  | nil => simp [firstIdx?]
  | cons y ys ih =>
    simp only [firstIdx?, List.mem_cons]
    by_cases h : y = x
    · subst h; simp
    · rw [if_neg h]
      cases hfi : firstIdx? x ys with
      | none =>
        have hnotin : x ∉ ys := ih.mp hfi
        simp only [Option.map_none', true_iff]
        rintro (rfl | hm)
        · exact h rfl
        · exact hnotin hm
      | some j =>
        have hmem : x ∈ ys := by
          by_contra hmem
          rw [ih.mpr hmem] at hfi
          exact Option.noConfusion hfi
        simp only [Option.map_some']
        constructor
        · intro hc; exact Option.noConfusion hc
        · intro hx
          exact absurd (Or.inr hmem) hx

/-- Characterization: `firstIdx? x l = some i` iff position `i` holds `x` and no earlier
position does: it is the first occurrence. -/
theorem firstIdx?_eq_some_iff [DecidableEq α] (x : α) (l : List α) (i : Nat) :
    firstIdx? x l = some i ↔ l[i]? = some x ∧ ∀ j < i, l[j]? ≠ some x := by
  induction l generalizing i with
  | nil => simp [firstIdx?]
  | cons y ys ih =>
    simp only [firstIdx?]
    by_cases h : y = x
    · subst h
      rw [if_pos rfl]
      constructor
      · intro hsome
        have hi : 0 = i := Option.some_injective _ hsome
        subst hi
        exact ⟨by simp, by omega⟩
      · rintro ⟨hget, hlt⟩
        cases i with
        | zero => rfl
        | succ i2 =>
          exfalso
          exact hlt 0 (Nat.succ_pos _) (by simp)
    · rw [if_neg h]
      cases hfi : firstIdx? x ys with
      | none =>
        have hnotin : x ∉ ys := (firstIdx?_eq_none_iff x ys).mp hfi
        simp only [Option.map_none']
        constructor
        · intro hc; exact Option.noConfusion hc
        · rintro ⟨hget, -⟩
          exfalso
          have hx : x ∈ y :: ys := List.getElem?_mem hget
          rcases List.mem_cons.mp hx with rfl | hm
          · exact h rfl
          · exact hnotin hm
      | some j =>
        simp only [Option.map_some']
        constructor
        · intro hsome
          have hij : j + 1 = i := Option.some_injective _ hsome
          subst hij
          rcases (ih j).mp hfi with ⟨hget, hlt⟩
          refine ⟨by simpa using hget, ?_⟩
          intro j2 hj2
          cases j2 with
          | zero =>
            simp only [List.getElem?_cons_zero]
            exact fun hc => h (Option.some_injective _ hc)
          | succ j3 =>
            simp only [List.getElem?_cons_succ]
            exact hlt j3 (by omega)
        · rintro ⟨hget, hlt⟩
          cases i with
          | zero =>
            exfalso
            apply h
            exact Option.some_injective _ (by simpa using hget)
          | succ i2 =>
            have hys : firstIdx? x ys = some i2 := by
              apply (ih i2).mpr
              refine ⟨by simpa using hget, ?_⟩
              intro j2 hj2
              have := hlt (j2 + 1) (by omega)
              simpa using this
            rw [hfi] at hys
            have : j = i2 := Option.some_injective _ hys
            subst this
            rfl

theorem firstIdx?_isSome_of_mem [DecidableEq α] {x : α} {l : List α}
    (hx : x ∈ l) : ∃ i, firstIdx? x l = some i := by
  cases hfi : firstIdx? x l with
  | none => exact absurd ((firstIdx?_eq_none_iff x l).mp hfi) (not_not_intro hx)
  | some i => exact ⟨i, rfl⟩

/-! Length preservation through the marking loop. -/

theorem markFirstSecond_length [DecidableEq α] (g : List α) (x : α)
    (flags : List Bool) : (markFirstSecond g x flags).length = flags.length := by
  unfold markFirstSecond
  split
  · rfl
  · split <;> simp

theorem markLast_length [DecidableEq α] (g : List α) (x : α)
    (flags : List Bool) : (markLast g x flags).length = flags.length := by
  unfold markLast
  split
  · rfl
  · simp

theorem markItem_length [DecidableEq α] (g : List α) (x : α)
    (flags : List Bool) : (markItem g x flags).length = flags.length := by
  unfold markItem
  rw [markLast_length, markFirstSecond_length]

theorem foldl_markItem_length [DecidableEq α] (g : List α) (xs : List α)
    (flags : List Bool) :
    (List.foldl (fun fl x => markItem g x fl) flags xs).length = flags.length := by
  induction xs generalizing flags with
  | nil => rfl
  | cons y ys ih =>
    rw [List.foldl_cons, ih, markItem_length]

theorem highlightCommon_length [DecidableEq α] (g : List α) :
    (highlightCommon g).length = g.length := by
  unfold highlightCommon
  rw [foldl_markItem_length, List.length_replicate]

/-! Order preservation of `highlight_unique` and `collapse_repeated`. -/

theorem highlight_unique_fst [DecidableEq α] (lst : List α) :
    (highlight_unique lst).map Prod.fst = lst := by
  unfold highlight_unique
  rw [List.map_flatMap]
  have h : ∀ p ∈ groupby (fun x => decide (3 < lst.count x)) lst,
      (if p.1 then p.2.zip (highlightCommon p.2)
        else p.2.map (fun x => (x, true))).map Prod.fst = Prod.snd p := by
    intro p hp
    by_cases h1 : p.1
    · rw [if_pos h1]
      exact List.map_fst_zip _ _ (le_of_eq (highlightCommon_length p.2).symm)
    · rw [if_neg h1, List.map_map]
      exact List.map_id _
  rw [List.flatMap_congr h, groupby_flatMap_snd]

theorem highlight_unique_length [DecidableEq α] (lst : List α) :
    (highlight_unique lst).length = lst.length := by
  conv_rhs => rw [← highlight_unique_fst lst]
  rw [List.length_map]

theorem zip_highlight_fst [DecidableEq κ] (lst : List α) (key : α → κ) :
    (lst.zip (highlight_unique (lst.map key))).map Prod.fst = lst :=
  List.map_fst_zip _ _ (by rw [highlight_unique_length, List.length_map])

theorem collapseSegments_eq [DecidableEq κ] (key : α → κ) (lst : List α) :
    collapseSegments key lst =
      (groupby (fun t : α × κ × Bool => t.2.2)
        (lst.zip (highlight_unique (lst.map key)))).flatMap emitSeg := by
  unfold collapseSegments collapse_repeated emitSeg
  rfl

theorem flatMap_singleton_map {γ : Type} (f : α → γ) (l : List α) :
    l.flatMap (fun x => [f x]) = l.map f := by
  induction l with
  | nil => rfl
  | cons y ys ih => rw [List.flatMap_cons, ih, List.map_cons]; rfl

/-- Claim C1: for every input and every collapser/mapper/key triple,
`collapse_repeated` factors through the recorded `Segment` sequence
(`collapseSegments`), and concatenating, in emitted order, the visible
items and the item runs underlying the summaries reconstructs the input
exactly: the collapse is a partition of the input with no reordering,
duplication or loss. -/
theorem collapse_partition [DecidableEq κ] (lst : List α) (key : α → κ)
    (collapser : List α → List κ → β) (mapper : α → β) :
    collapse_repeated lst collapser mapper key =
        (collapseSegments key lst).map (Segment.render collapser mapper) ∧
      reconstruct (collapseSegments key lst) = lst := by
  constructor
  · rw [collapseSegments_eq, List.map_flatMap]
    unfold collapse_repeated
    apply List.flatMap_congr
    intro p hp
    by_cases h1 : p.1
    · unfold emitSeg
      rw [if_pos h1, if_pos h1, List.map_map]
      rfl
    · unfold emitSeg
      rw [if_neg h1, if_neg h1]
      rfl
  · rw [collapseSegments_eq]
    unfold reconstruct
    rw [List.flatMap_assoc]
    have h : ∀ p ∈ groupby (fun t : α × κ × Bool => t.2.2)
        (lst.zip (highlight_unique (lst.map key))),
        (emitSeg p).flatMap segmentItems =
          (fun q : Bool × List (α × κ × Bool) => q.2.map Prod.fst) p := by
      intro p hp
      unfold emitSeg
      by_cases h1 : p.1
      · rw [if_pos h1, List.flatMap_map]
        exact flatMap_singleton_map _ _
      · rw [if_neg h1, List.flatMap_singleton]
        rfl
    rw [List.flatMap_congr h]
    have h2 : (groupby (fun t : α × κ × Bool => t.2.2)
        (lst.zip (highlight_unique (lst.map key)))).flatMap
          (fun q => q.2.map Prod.fst) =
        ((groupby (fun t : α × κ × Bool => t.2.2)
          (lst.zip (highlight_unique (lst.map key)))).flatMap Prod.snd).map
            Prod.fst := (List.map_flatMap _ _ _).symm
    rw [h2, groupby_flatMap_snd]
    exact zip_highlight_fst lst key

/-! Structure of the emitted `Segment` sequence. -/

theorem summary_mem_flatMap_emitSeg {gs : List (Bool × List (α × κ × Bool))}
    {o : List α} {ks : List κ} :
    Segment.summary o ks ∈ gs.flatMap emitSeg ↔
      ∃ p ∈ gs, p.1 = false ∧ o = p.2.map Prod.fst ∧
        ks = p.2.map (fun t => t.2.1) := by
  rw [List.mem_flatMap]
  constructor
  · rintro ⟨p, hp, hmem⟩
    unfold emitSeg at hmem
    by_cases h1 : p.1
    · rw [if_pos h1] at hmem
      rcases List.mem_map.mp hmem with ⟨t, -, ht⟩
      exact absurd ht (by intro hc; cases hc)
    · rw [if_neg h1] at hmem
      have heq := List.mem_singleton.mp hmem
      injection heq with h2 h3
      exact ⟨p, hp, by simpa using h1, h2, h3⟩
  · rintro ⟨p, hp, h1, rfl, rfl⟩
    refine ⟨p, hp, ?_⟩
    unfold emitSeg
    rw [if_neg (by simp [h1])]
    exact List.mem_singleton.mpr rfl

theorem chain'_item_map (l : List (α × κ × Bool)) :
    List.Chain' (fun a b : Segment α κ =>
      ¬(a.isSummary = true ∧ b.isSummary = true)) (l.map (fun t => Segment.item t.1)) := by
  induction l with
  | nil => exact List.chain'_nil
  | cons t ts ih =>
    rw [List.map_cons]
    refine List.chain'_cons'.mpr ⟨?_, ih⟩
    rintro y - ⟨h1, -⟩
    cases h1

theorem emitSeg_ne_nil {p : Bool × List (α × κ × Bool)} (hne : p.2 ≠ []) :
    emitSeg (α := α) (κ := κ) p ≠ [] := by
  unfold emitSeg
  by_cases h1 : p.1
  · rw [if_pos h1]
    simpa using hne
  · rw [if_neg h1]
    simp

theorem emitSeg_head_not_summary {p : Bool × List (α × κ × Bool)}
    (h1 : p.1 = true) {b : Segment α κ} (hb : b ∈ (emitSeg p).head?) :
    b.isSummary = false := by
  unfold emitSeg at hb
  rw [if_pos h1, List.head?_map] at hb
  rcases Option.map_eq_some'.mp (Option.mem_def.mp hb) with ⟨t, -, ht⟩
  rw [← ht]
  rfl

theorem emitSeg_last_not_summary {p : Bool × List (α × κ × Bool)}
    (h1 : p.1 = true) {a : Segment α κ} (ha : a ∈ (emitSeg p).getLast?) :
    a.isSummary = false := by
  unfold emitSeg at ha
  rw [if_pos h1, List.getLast?_map] at ha
  rcases Option.map_eq_some'.mp (Option.mem_def.mp ha) with ⟨t, -, ht⟩
  rw [← ht]
  rfl

theorem chain'_flatMap_emitSeg (gs : List (Bool × List (α × κ × Bool)))
    (hne : ∀ p ∈ gs, p.2 ≠ [])
    (hch : List.Chain' (fun p q : Bool × List (α × κ × Bool) => p.1 ≠ q.1) gs) :
    List.Chain' (fun a b : Segment α κ =>
      ¬(a.isSummary = true ∧ b.isSummary = true)) (gs.flatMap emitSeg) := by
  induction gs with
  | nil => exact List.chain'_nil
  | cons p gs ih =>
    rw [List.flatMap_cons, List.chain'_append]
    have hchtail : List.Chain' (fun p q : Bool × List (α × κ × Bool) => p.1 ≠ q.1) gs :=
      (List.chain'_cons'.mp hch).2
    refine ⟨?_, ih (fun q hq => hne q (List.mem_cons_of_mem _ hq)) hchtail, ?_⟩
    · unfold emitSeg
      by_cases h1 : p.1
      · rw [if_pos h1]
        exact chain'_item_map _
      · rw [if_neg h1]
        exact List.chain'_singleton _
    · intro a ha b hb
      by_cases h1 : p.1
      · rintro ⟨ha2, -⟩
        rw [emitSeg_last_not_summary h1 ha] at ha2
        cases ha2
      · cases gs with
        | nil =>
          rw [List.flatMap_nil] at hb
          cases hb
        | cons q gs2 =>
          have hq1 : q.1 = true := by
            have hpq : p.1 ≠ q.1 := by
              have := (List.chain'_cons'.mp hch).1
              exact this q (by rw [List.head?_cons]; rfl)
            cases hq : q.1 with
            | true => rfl
            | false =>
              exfalso
              apply hpq
              rw [hq]
              cases hp1 : p.1 with
              | false => rfl
              | true => exact absurd hp1 h1
          rw [List.flatMap_cons, List.head?_append] at hb
          have hqne : (emitSeg q : List (Segment α κ)) ≠ [] :=
            emitSeg_ne_nil (hne q (List.mem_cons_of_mem _ (List.mem_cons_self _ _)))
          rintro ⟨-, hb2⟩
          have hbq : b ∈ (emitSeg q : List (Segment α κ)).head? := by
            cases hhd : (emitSeg q : List (Segment α κ)).head? with
            | none =>
              exact absurd (List.head?_eq_none_iff.mp hhd) hqne
            | some c =>
              rw [hhd] at hb
              simpa using hb
          rw [emitSeg_head_not_summary hq1 hbq] at hb2
          cases hb2

theorem filterMap_const_none {γ δ : Type} (l : List γ) :
    l.filterMap (fun _ => (none : Option δ)) = [] := by
  induction l with
  | nil => rfl
  | cons x xs ih => rw [List.filterMap_cons]; exact ih

theorem filterMap_summary_flatMap_emitSeg
    (gs : List (Bool × List (α × κ × Bool))) :
    (gs.flatMap emitSeg).filterMap (summaryItems? (α := α) (κ := κ)) =
      (gs.filter (fun p => !p.1)).map (fun p => p.2.map Prod.fst) := by
  induction gs with
  | nil => rfl
  | cons p gs ih =>
    rw [List.flatMap_cons, List.filterMap_append, ih, List.filter_cons]
    by_cases h1 : p.1
    · rw [if_neg (by simp [h1])]
      unfold emitSeg
      rw [if_pos h1, List.filterMap_map]
      have hcomp : (summaryItems? ∘ fun t : α × κ × Bool => Segment.item (κ := κ) t.1)
          = fun _ => (none : Option (List α)) := rfl
      rw [hcomp, filterMap_const_none, List.nil_append]
    · rw [if_pos (by simp [h1])]
      unfold emitSeg
      rw [if_neg h1, List.map_cons]
      rfl

/-- Claim C8: in the emitted `Segment` sequence, every summary covers a
non-empty run, no two consecutive entries are summaries, the summaries are,
in order, exactly the hidden (flag-`false`) groups of the visibility
grouping — one summary per group, never split or merged — and those groups
are maximal (adjacent groups of the grouping always differ in flag). -/
theorem collapse_segment_invariants [DecidableEq κ] (lst : List α) (key : α → κ) :
    (∀ o ks, Segment.summary o ks ∈ collapseSegments key lst → o ≠ []) ∧
      List.Chain' (fun a b : Segment α κ =>
        ¬(a.isSummary = true ∧ b.isSummary = true)) (collapseSegments key lst) ∧
      (collapseSegments key lst).filterMap summaryItems? =
        ((groupby (fun t : α × κ × Bool => t.2.2)
            (lst.zip (highlight_unique (lst.map key)))).filter (fun p => !p.1)).map
          (fun p => p.2.map Prod.fst) ∧
      List.Chain' (fun p q : Bool × List (α × κ × Bool) => p.1 ≠ q.1)
        (groupby (fun t : α × κ × Bool => t.2.2)
          (lst.zip (highlight_unique (lst.map key)))) := by
  refine ⟨?_, ?_, ?_, groupby_chain_ne _ _⟩
  · intro o ks hmem
    rw [collapseSegments_eq] at hmem
    rcases summary_mem_flatMap_emitSeg.mp hmem with ⟨p, hp, -, rfl, -⟩
    have hpne : p.2 ≠ [] := groupby_group_ne_nil _ _ p hp
    simpa using hpne
  · rw [collapseSegments_eq]
    exact chain'_flatMap_emitSeg _ (groupby_group_ne_nil _ _) (groupby_chain_ne _ _)
  · rw [collapseSegments_eq]
    exact filterMap_summary_flatMap_emitSeg _

/-! Global counting: the collapsing threshold. -/

theorem highlight_visible_of_count_le [DecidableEq α] (lst : List α) (x : α)
    (hx : lst.count x ≤ 3) (b : Bool) (hmem : (x, b) ∈ highlight_unique lst) :
    b = true := by
  unfold highlight_unique at hmem
  rcases List.mem_flatMap.mp hmem with ⟨p, hp, hmem2⟩
  by_cases h1 : p.1
  · rw [if_pos h1] at hmem2
    exfalso
    have hxmem : x ∈ p.2 := (List.of_mem_zip hmem2).1
    have hkey := groupby_key_eq _ lst p hp x hxmem
    have h3 : 3 < lst.count x := of_decide_eq_true (hkey.trans h1)
    omega
  · rw [if_neg h1] at hmem2
    rcases List.mem_map.mp hmem2 with ⟨y, hy, heq⟩
    injection heq with h2 h3
    exact h3.symm

/-- Claim C3: a run's tag is `Common` iff its elements' global count over
the whole input exceeds 3 — the counts are computed globally, not per run —
and consequently, for a key occurring at most 3 times in total, every
occurrence is `Visible` and no summary's key list ever contains it. -/
theorem common_iff_global_count [DecidableEq κ] (lstK : List κ) (x : κ)
    (hx : lstK.count x ≤ 3) (lst : List α) (key : α → κ) (x2 : κ)
    (hx2 : (lst.map key).count x2 ≤ 3) :
    (∀ p ∈ groupby (fun y => decide (3 < lstK.count y)) lstK, ∀ y ∈ p.2,
        (p.1 = true ↔ 3 < lstK.count y)) ∧
      (∀ b : Bool, (x, b) ∈ highlight_unique lstK → b = true) ∧
      (∀ o ks, Segment.summary o ks ∈ collapseSegments key lst → x2 ∉ ks) := by
  refine ⟨?_, ?_, ?_⟩
  · intro p hp y hy
    have hkey := groupby_key_eq _ lstK p hp y hy
    constructor
    · intro h1
      exact of_decide_eq_true (hkey.trans h1)
    · intro h2
      rw [← hkey]
      exact decide_eq_true h2
  · intro b hmem
    exact highlight_visible_of_count_le lstK x hx b hmem
  · intro o ks hmem hx2mem
    rw [collapseSegments_eq] at hmem
    rcases summary_mem_flatMap_emitSeg.mp hmem with ⟨p, hp, hfalse, -, hks⟩
    subst hks
    rcases List.mem_map.mp hx2mem with ⟨t, ht, hteq⟩
    have hflag : t.2.2 = p.1 := groupby_key_eq _ _ p hp t ht
    have htz : t ∈ lst.zip (highlight_unique (lst.map key)) :=
      mem_of_mem_groupby hp ht
    obtain ⟨a, k1, b1⟩ := t
    have ht2 : (k1, b1) ∈ highlight_unique (lst.map key) :=
      (List.of_mem_zip htz).2
    have hk1 : k1 = x2 := hteq
    have hb1 : b1 = false := hflag.trans hfalse
    rw [hk1, hb1] at ht2
    have := highlight_visible_of_count_le (lst.map key) x2 hx2 false ht2
    cases this

/-- Claim C3, witness: in `[5,5,5,5,1]` the key `1` occurs once, so each of
its occurrences is visible; in `[5,5,5,5,5]` (key = identity) the key `1`
never occurs, so no summary key list contains it. -/
theorem common_iff_global_count_witness :
    (∀ p ∈ groupby (fun y => decide (3 < List.count y [5, 5, 5, 5, 1]))
        [5, 5, 5, 5, 1], ∀ y ∈ p.2,
          (p.1 = true ↔ 3 < List.count y [5, 5, 5, 5, 1])) ∧
      (∀ b : Bool, ((1 : Nat), b) ∈ highlight_unique [5, 5, 5, 5, 1] → b = true) ∧
      (∀ o ks, Segment.summary o ks ∈ collapseSegments (id : Nat → Nat) [5, 5, 5, 5, 5] →
        (1 : Nat) ∉ ks) :=
  common_iff_global_count [5, 5, 5, 5, 1] 1 (by decide) [5, 5, 5, 5, 5] id 1 (by decide)

/-- Claim C9, divergence: at a stack holding a `RepeatedFrames` summary
followed by a frame, `format_stack_data` yields nothing — the generator
`return` discards the formatted summary line and stops, dropping the
following frame — while the spec's linearization yields the
`[... skipping similar frames: ...]` line followed by the frame's lines. -/
theorem format_stack_data_drops_summary :
    format_stack_data (fun s : String => [s])
        [StackItem.repeatedFrames demoDescription, StackItem.frameInfo demoLine] = [] ∧
      format_stack_data_spec (fun s : String => [s])
        [StackItem.repeatedFrames demoDescription, StackItem.frameInfo demoLine] =
        [format_repeated_frames demoDescription, demoLine] ∧
      format_repeated_frames demoDescription =
        "    [... skipping similar frames: demo]\n" :=
  ⟨rfl, rfl, rfl⟩

/-! Boundary visibility inside a common run: which positions the marking
loop sets. -/

theorem getElem?_lt_length {l : List α} {i : Nat} {a : α}
    (h : l[i]? = some a) : i < l.length := by
  by_contra hge
  rw [List.getElem?_eq_none (by omega)] at h
  exact Option.noConfusion h

theorem firstOccIdx_unique {g : List α} {x : α} {i j : Nat}
    (h1 : firstOccIdx g x i) (h2 : firstOccIdx g x j) : i = j := by
  rcases h1 with ⟨hg1, hl1⟩
  rcases h2 with ⟨hg2, hl2⟩
  by_contra hne
  rcases Nat.lt_or_ge i j with h | h
  · exact hl2 i h hg1
  · exact hl1 j (by omega) hg2

theorem lastOccIdx_unique {g : List α} {x : α} {i j : Nat}
    (h1 : lastOccIdx g x i) (h2 : lastOccIdx g x j) : i = j := by
  rcases h1 with ⟨hg1, hl1⟩
  rcases h2 with ⟨hg2, hl2⟩
  by_contra hne
  rcases Nat.lt_or_ge i j with h | h
  · exact hl1 j h hg2
  · exact hl2 i (by omega) hg1

theorem secondOccIdx_unique {g : List α} {x : α} {i j : Nat}
    (h1 : secondOccIdx g x i) (h2 : secondOccIdx g x j) : i = j := by
  rcases h1 with ⟨hg1, f1, hf1, hlt1, hgap1⟩
  rcases h2 with ⟨hg2, f2, hf2, hlt2, hgap2⟩
  have hf : f1 = f2 := firstOccIdx_unique hf1 hf2
  subst hf
  by_contra hne
  rcases Nat.lt_or_ge i j with h | h
  · exact hgap2 i hlt1 h hg1
  · exact hgap1 j hlt2 (by omega) hg2

theorem markSpec_value {g : List α} {x : α} {i : Nat}
    (h : markSpec g x i) : g[i]? = some x := by
  rcases h with h | h | h
  · exact h.1
  · exact h.1
  · exact h.1

/-- A successful `group.index(item, first + 1)` search, seen through
`g.drop (first + 1)`, finds exactly the second occurrence. -/
theorem secondOcc_iff_firstIdx_drop [DecidableEq α] {g : List α} {x : α}
    {f : Nat} (hf : firstOccIdx g x f) (i : Nat) :
    secondOccIdx g x i ↔
      ∃ j, firstIdx? x (g.drop (f + 1)) = some j ∧ i = f + 1 + j := by
  constructor
  · rintro ⟨hgi, f2, hf2, hlt, hgap⟩
    have hff : f2 = f := firstOccIdx_unique hf2 hf
    subst hff
    refine ⟨i - (f2 + 1), ?_, by omega⟩
    rw [firstIdx?_eq_some_iff]
    constructor
    · rw [List.getElem?_drop]
      have heq : f2 + 1 + (i - (f2 + 1)) = i := by omega
      rw [heq]
      exact hgi
    · intro j2 hj2
      rw [List.getElem?_drop]
      exact hgap (f2 + 1 + j2) (by omega) (by omega)
  · rintro ⟨j, hj, rfl⟩
    rw [firstIdx?_eq_some_iff] at hj
    rcases hj with ⟨hget, hlt⟩
    rw [List.getElem?_drop] at hget
    refine ⟨hget, f, hf, by omega, ?_⟩
    intro j2 hj2a hj2b
    have := hlt (j2 - (f + 1)) (by omega)
    rw [List.getElem?_drop] at this
    have heq : f + 1 + (j2 - (f + 1)) = j2 := by omega
    rw [heq] at this
    exact this

/-- The reversed search `group[::-1].index(item)`, landing at position
`len - 1 - r` through Python's negative indexing, finds exactly the last
occurrence. -/
theorem lastOcc_iff_firstIdx_reverse [DecidableEq α] (g : List α) (x : α)
    (i : Nat) :
    lastOccIdx g x i ↔
      ∃ r, firstIdx? x g.reverse = some r ∧ i = g.length - 1 - r := by
  constructor
  · rintro ⟨hgi, htail⟩
    have hi : i < g.length := getElem?_lt_length hgi
    refine ⟨g.length - 1 - i, ?_, by omega⟩
    rw [firstIdx?_eq_some_iff]
    constructor
    · rw [List.getElem?_reverse (by omega)]
      have heq : g.length - 1 - (g.length - 1 - i) = i := by omega
      rw [heq]
      exact hgi
    · intro j hj
      rw [List.getElem?_reverse (by omega)]
      exact htail (g.length - 1 - j) (by omega)
  · rintro ⟨r, hr, rfl⟩
    rw [firstIdx?_eq_some_iff] at hr
    rcases hr with ⟨hget, hlt⟩
    have hrlen : r < g.length := by
      have := getElem?_lt_length hget
      rwa [List.length_reverse] at this
    rw [List.getElem?_reverse (by omega)] at hget
    refine ⟨hget, ?_⟩
    intro j hj
    by_cases hjlen : j < g.length
    · have := hlt (g.length - 1 - j) (by omega)
      rw [List.getElem?_reverse (by omega)] at this
      have heq : g.length - 1 - (g.length - 1 - j) = j := by omega
      rw [heq] at this
      exact this
    · rw [List.getElem?_eq_none (by omega)]
      exact fun hc => Option.noConfusion hc

theorem getElem?_set_true {flags : List Bool} {i : Nat} (j : Nat)
    (hi : i < flags.length) :
    ((flags.set i true)[j]? = some true) ↔ (j = i ∨ flags[j]? = some true) := by
  rw [List.getElem?_set]
  by_cases h : i = j
  · subst h
    simp [hi]
  · have hji : ¬j = i := fun hc => h hc.symm
    simp [h, hji]

/-- Pointwise effect of the first/second marking: position `i` ends `True`
iff it already was, or it is the first or second occurrence of `x`. -/
theorem markFirstSecond_getElem [DecidableEq α] (g : List α) (x : α)
    (flags : List Bool) (hlen : flags.length = g.length) (i : Nat) :
    ((markFirstSecond g x flags)[i]? = some true) ↔
      (flags[i]? = some true ∨ firstOccIdx g x i ∨ secondOccIdx g x i) := by
  unfold markFirstSecond
  split
  next hf =>
    have hnotin : x ∉ g := (firstIdx?_eq_none_iff x g).mp hf
    constructor
    · intro h
      exact Or.inl h
    · rintro (h | h | h)
      · exact h
      · exact absurd (List.getElem?_mem h.1) hnotin
      · exact absurd (List.getElem?_mem h.1) hnotin
  next f hf =>
    have hfocc : firstOccIdx g x f := (firstIdx?_eq_some_iff x g f).mp hf
    have hflen : f < g.length := getElem?_lt_length hfocc.1
    split
    next hs =>
      rw [getElem?_set_true i (by omega)]
      constructor
      · rintro (rfl | h)
        · exact Or.inr (Or.inl hfocc)
        · exact Or.inl h
      · rintro (h | h | h)
        · exact Or.inr h
        · exact Or.inl (firstOccIdx_unique h hfocc)
        · exfalso
          rcases (secondOcc_iff_firstIdx_drop hfocc i).mp h with ⟨j, hj, -⟩
          rw [hs] at hj
          exact Option.noConfusion hj
    next j hs =>
      have hsocc : secondOccIdx g x (f + 1 + j) :=
        (secondOcc_iff_firstIdx_drop hfocc (f + 1 + j)).mpr ⟨j, hs, rfl⟩
      have hslen : f + 1 + j < g.length := getElem?_lt_length hsocc.1
      rw [getElem?_set_true i (by rw [List.length_set]; omega),
        getElem?_set_true i (by omega)]
      constructor
      · rintro (rfl | rfl | h)
        · exact Or.inr (Or.inr hsocc)
        · exact Or.inr (Or.inl hfocc)
        · exact Or.inl h
      · rintro (h | h | h)
        · exact Or.inr (Or.inr h)
        · exact Or.inr (Or.inl (firstOccIdx_unique h hfocc))
        · exact Or.inl (secondOccIdx_unique h hsocc)

/-- Pointwise effect of the last-occurrence marking. -/
theorem markLast_getElem [DecidableEq α] (g : List α) (x : α)
    (flags : List Bool) (hlen : flags.length = g.length) (i : Nat) :
    ((markLast g x flags)[i]? = some true) ↔
      (flags[i]? = some true ∨ lastOccIdx g x i) := by
  unfold markLast
  split
  next hr =>
    have hnotin : x ∉ g := by
      intro hmem
      exact absurd ((firstIdx?_eq_none_iff x g.reverse).mp hr)
        (not_not_intro (List.mem_reverse.mpr hmem))
    constructor
    · intro h
      exact Or.inl h
    · rintro (h | h)
      · exact h
      · exact absurd (List.getElem?_mem h.1) hnotin
  next r hr =>
    have hlocc : lastOccIdx g x (g.length - 1 - r) :=
      (lastOcc_iff_firstIdx_reverse g x (g.length - 1 - r)).mpr ⟨r, hr, rfl⟩
    have hllen : g.length - 1 - r < g.length := getElem?_lt_length hlocc.1
    rw [getElem?_set_true i (by omega)]
    constructor
    · rintro (rfl | h)
      · exact Or.inr hlocc
      · exact Or.inl h
    · rintro (h | h)
      · exact Or.inr h
      · exact Or.inl (lastOccIdx_unique h hlocc)

/-- Pointwise effect of one whole loop body: position `i` ends `True` iff
it already was, or it is the first, second or last occurrence of `x`. -/
theorem markItem_getElem [DecidableEq α] (g : List α) (x : α)
    (flags : List Bool) (hlen : flags.length = g.length) (i : Nat) :
    ((markItem g x flags)[i]? = some true) ↔
      (flags[i]? = some true ∨ markSpec g x i) := by
  unfold markItem markSpec
  rw [markLast_getElem g x _ (by rw [markFirstSecond_length]; exact hlen) i,
    markFirstSecond_getElem g x flags hlen i]
  tauto

theorem foldl_markItem_getElem [DecidableEq α] (g : List α) (xs : List α)
    (flags : List Bool) (hlen : flags.length = g.length) (i : Nat) :
    ((List.foldl (fun fl x => markItem g x fl) flags xs)[i]? = some true) ↔
      (flags[i]? = some true ∨ ∃ x ∈ xs, markSpec g x i) := by
  induction xs generalizing flags with
  | nil => simp
  | cons y ys ih =>
    rw [List.foldl_cons, ih _ (by rw [markItem_length]; exact hlen),
      markItem_getElem g y flags hlen i]
    constructor
    · rintro ((h | h) | ⟨x, hx, hm⟩)
      · exact Or.inl h
      · exact Or.inr ⟨y, List.mem_cons_self _ _, h⟩
      · exact Or.inr ⟨x, List.mem_cons_of_mem _ hx, hm⟩
    · rintro (h | ⟨x, hx, hm⟩)
      · exact Or.inl (Or.inl h)
      · rcases List.mem_cons.mp hx with rfl | hx2
        · exact Or.inl (Or.inr hm)
        · exact Or.inr ⟨x, hx2, hm⟩

/-- Extensional description of the common-run flags: position `i` is marked
iff it is the first, second or last occurrence of its own element. -/
theorem highlightCommon_getElem [DecidableEq α] (g : List α) (i : Nat)
    (hi : i < g.length) :
    ((highlightCommon g)[i]? = some true) ↔ markSpec g g[i] i := by
  unfold highlightCommon
  rw [foldl_markItem_getElem g g.dedup _ (by rw [List.length_replicate]) i,
    List.getElem?_replicate]
  constructor
  · rintro (h | ⟨x, hx, hm⟩)
    · rw [if_pos hi] at h
      exact absurd (Option.some_injective _ h) (by decide)
    · have hval := markSpec_value hm
      rw [List.getElem?_eq_getElem hi] at hval
      have hxi : g[i] = x := Option.some_injective _ hval
      rw [hxi]
      exact hm
  · intro hm
    exact Or.inr ⟨g[i], List.mem_dedup.mpr (List.getElem_mem hi), hm⟩

/-- Claim C2: inside a maximal `Common` run `g` of the visibility grouping,
position `i` is `Visible` iff it holds the first, the second, or the last
occurrence of its own element in the run.  For an element with `m > 3`
occurrences these are three distinct positions (first < second ≤ last, the
remaining `m - 3` occurrences `Hidden`); for `m ≤ 2` every occurrence is one
of them — the last-occurrence search re-marks an already-marked position
idempotently, with no error and no third distinct position marked. -/
theorem highlightCommon_boundary_visibility [DecidableEq α] (lst g : List α)
    (hg : (true, g) ∈ groupby (fun y => decide (3 < lst.count y)) lst)
    (i : Nat) (hi : i < g.length) :
    (((highlightCommon g)[i]? = some true) ↔
        (firstOccIdx g g[i] i ∨ secondOccIdx g g[i] i ∨ lastOccIdx g g[i] i)) ∧
      (∀ x f s l2, firstOccIdx g x f → secondOccIdx g x s → lastOccIdx g x l2 →
        f < s ∧ s ≤ l2) := by
  constructor
  · exact highlightCommon_getElem g i hi
  · intro x f s l2 hf hs hl
    rcases hs with ⟨hgs, f2, hf2, hlt2, -⟩
    have hff : f2 = f := firstOccIdx_unique hf2 hf
    subst hff
    refine ⟨hlt2, ?_⟩
    by_contra hgt
    exact hl.2 s (by omega) hgs

/-- Claim C2, witness: in the run `[5,5,5,5,5]` (a maximal `Common` run of
the input `[5,5,5,5,5]`, where `5` has global count `5 > 3`), position `2`
is hidden because it is neither the first, second nor last occurrence. -/
theorem highlightCommon_boundary_visibility_witness :
    (((highlightCommon [5, 5, 5, 5, 5])[2]? = some true) ↔
        (firstOccIdx [5, 5, 5, 5, 5] (([5, 5, 5, 5, 5] : List Nat)[2]) 2 ∨
          secondOccIdx [5, 5, 5, 5, 5] (([5, 5, 5, 5, 5] : List Nat)[2]) 2 ∨
          lastOccIdx [5, 5, 5, 5, 5] (([5, 5, 5, 5, 5] : List Nat)[2]) 2)) ∧
      (∀ x f s l2, firstOccIdx ([5, 5, 5, 5, 5] : List Nat) x f →
        secondOccIdx [5, 5, 5, 5, 5] x s → lastOccIdx [5, 5, 5, 5, 5] x l2 →
        f < s ∧ s ≤ l2) :=
  highlightCommon_boundary_visibility [5, 5, 5, 5, 5] [5, 5, 5, 5, 5]
    (by decide) 2 (by decide)

end StackData
